import Mathlib

/-!
# Verification of the ed25519consensus engine (ZIP215 Ed25519 verification)

Shallow embedding of the repository's verification engine:
`Verify` (ed25519.go), `BatchVerifier.Add` / `BatchVerifier.VerifyBatch`
(batch verifier file) and `Verifier.VerifyBatch` (the `Verifier` variant).

The elliptic-curve point arithmetic is an external collaborator
(`filippo.io/edwards25519`), out of scope for the repository and specified
only at its interface: points form an additive commutative group with
decidable equality, with a fixed base point and a relaxed byte decoder
`SetBytes : bytes → Option Point` (which accepts any byte string that
parses as a point, canonically encoded or not).  Scalars mod the group
order `L` are embedded concretely as natural numbers reduced mod `L`,
because the scalar-side rules (canonical decoding, reduction of a 64-byte
digest) are consensus-critical and fully determined. SHA-512 is likewise an
external primitive, embedded as an abstract function parameter `sha`.

Bytes are `List ℕ` in little-endian order, interpreted by `fromLE`.
-/

set_option autoImplicit false

namespace Ed25519Consensus

/-- The Ed25519 group order `2^252 + 27742317777372353535851937790883648493`. -/
def L : ℕ := 7237005577332262213973186563042994240857116359379907606001950938285454250989

/-- Little-endian interpretation of a byte string as a natural number. -/
def fromLE : List ℕ → ℕ
  | [] => 0
  | b :: rest => b + 256 * fromLE rest

/-- Models `edwards25519.Scalar.SetUniformBytes`: reduce a (64-byte) digest
mod the group order. -/
def SetUniformBytes (b : List ℕ) : ℕ := fromLE b % L

/-- Models `edwards25519.Scalar.SetCanonicalBytes`: succeeds exactly on
32-byte strings whose little-endian value is strictly below the group
order `L`. -/
def SetCanonicalBytes (b : List ℕ) : Option ℕ :=
  if b.length = 32 ∧ fromLE b < L then some (fromLE b) else none

/-- One batch entry (Go struct `ks`): the stored public key and signature
bytes and the precomputed challenge scalar `k`. -/
structure ks where
  pubkey : List ℕ
  signature : List ℕ
  k : ℕ
deriving DecidableEq

/-- Default entry, used for positional access in statements. -/
def ks0 : ks := ⟨[], [], 0⟩

section Engine

variable {Point : Type} [AddCommGroup Point] [DecidableEq Point]

/-- Models `edwards25519.Point.ScalarMult` at the interface: multiplication
of a point by the canonical representative (mod `L`) of a scalar. -/
def ScalarMult (s : ℕ) (P : Point) : Point := (s % L) • P

/-- Models `edwards25519.Point.MultByCofactor`: multiplication by the
cofactor 8 (an integer multiple, not a mod-`L` scalar action). -/
def MultByCofactor (P : Point) : Point := (8 : ℕ) • P

/-- Models `edwards25519.Point.VarTimeDoubleScalarBaseMult` at the
interface: `[a]A + [b]B` for the fixed base point `B`. -/
def VarTimeDoubleScalarBaseMult (Bpt : Point) (a : ℕ) (A : Point) (b : ℕ) : Point :=
  ScalarMult a A + ScalarMult b Bpt

/-- Models `edwards25519.Point.VarTimeMultiScalarMult` at the interface:
the sum of the scalar-weighted points. -/
def VarTimeMultiScalarMult (ss : List ℕ) (ps : List Point) : Point :=
  (List.zipWith ScalarMult ss ps).sum

variable (fromBytesP : List ℕ → Option Point) (Bpt : Point) (sha : List ℕ → List ℕ)

/-- Embedding of `Verify` from `ed25519.go`.  `fromBytesP` is the relaxed
`edwards25519.Point.SetBytes` decoder, `Bpt` the base point, `sha` the
SHA-512 primitive. -/
def Verify (pk msg sig : List ℕ) : Bool :=
  if pk.length ≠ 32 then false
  else if sig.length ≠ 64 ∨ sig.getD 63 0 &&& 224 ≠ 0 then false
  else
    match fromBytesP pk with
    | none => false
    | some A =>
      let Aneg := -A
      let digest := sha (sig.take 32 ++ pk ++ msg)
      let hReduced := SetUniformBytes digest
      match fromBytesP (sig.take 32) with
      | none => false
      | some checkR =>
        match SetCanonicalBytes (sig.drop 32) with
        | none => false
        | some s =>
          let R := VarTimeDoubleScalarBaseMult Bpt hReduced Aneg s
          decide (MultByCofactor (R - checkR) = 0)

/-- Embedding of `BatchVerifier.Add`: format checks, eager challenge-scalar
computation, append.  It takes no point decoder: the Go code performs no
point decoding in `Add`. -/
def BatchVerifier.Add (v : List ks) (publicKey sig message : List ℕ) : Bool × List ks :=
  if publicKey.length ≠ 32 then (false, v)
  else if sig.length ≠ 64 ∨ sig.getD 63 0 &&& 224 ≠ 0 then (false, v)
  else
    let digest := sha (sig.take 32 ++ publicKey ++ message)
    let k := SetUniformBytes digest
    (true, v ++ [⟨publicKey, sig, k⟩])

/-- The per-entry loop shared verbatim by `BatchVerifier.VerifyBatch` and
`Verifier.VerifyBatch`: decode `R_i` and `A_i` with the relaxed rule, draw
a 128-bit random scalar `z_i` (16 random bytes zero-extended to 32),
decode `s_i` canonically, accumulate `Bcoeff` and build the coefficient
and point lists.  `rand i` is the 16-byte string `rand.Read` produces at
iteration `i`. -/
def batchLoop (rand : ℕ → List ℕ) :
    List ks → ℕ → ℕ → Option (ℕ × List ℕ × List ℕ × List Point × List Point)
  | [], _, bc => some (bc, [], [], [], [])
  | e :: rest, i, bc =>
    match fromBytesP (e.signature.take 32) with
    | none => none
    | some Rp =>
      match fromBytesP e.pubkey with
      | none => none
      | some Ap =>
        match SetCanonicalBytes (rand i ++ List.replicate 16 0) with
        | none => none
        | some z =>
          match SetCanonicalBytes (e.signature.drop 32) with
          | none => none
          | some s =>
            match batchLoop rand rest (i + 1) ((z * s + bc) % L) with
            | none => none
            | some (bcf, zs, acs, Rps, Aps) =>
              some (bcf, z :: zs, (z * e.k % L) :: acs, Rp :: Rps, Ap :: Aps)

/-- Embedding of `BatchVerifier.VerifyBatch`: on a decode failure it
returns `false` with the entries untouched (the Go early `return false`);
after the loop it negates `Bcoeff`, purges the entries, evaluates the
multi-scalar multiplication over `[Bcoeff] ++ Rcoeffs ++ Acoeffs` against
`[B] ++ Rs ++ As`, clears the cofactor, and compares with the identity. -/
def BatchVerifier.VerifyBatch (rand : ℕ → List ℕ) (v : List ks) : Bool × List ks :=
  match batchLoop fromBytesP rand v 0 0 with
  | none => (false, v)
  | some (bc, zs, acs, Rps, Aps) =>
    let scalars := (L - bc % L) % L :: (zs ++ acs)
    let points := Bpt :: (Rps ++ Aps)
    (decide (MultByCofactor (VarTimeMultiScalarMult scalars points) = 0), [])

/-- Embedding of `Verifier.VerifyBatch` (the `Verifier` variant): the same
loop and equation, but the entry list is never cleared. -/
def Verifier.VerifyBatch (rand : ℕ → List ℕ) (v : List ks) : Bool × List ks :=
  match batchLoop fromBytesP rand v 0 0 with
  | none => (false, v)
  | some (bc, zs, acs, Rps, Aps) =>
    let scalars := (L - bc % L) % L :: (zs ++ acs)
    let points := Bpt :: (Rps ++ Aps)
    (decide (MultByCofactor (VarTimeMultiScalarMult scalars points) = 0), v)

end Engine

/-! ## Concrete instantiations used to exercise the engine

The curve primitive is external, so concrete runs instantiate the abstract
point group with `ℤ` and simple decoders; the scalar side (the part the
engine owns) is always the real mod-`L` arithmetic. -/

/-- A decoder that parses every byte string (into `ℤ`). -/
def intDecode (b : List ℕ) : Option ℤ := some (fromLE b)

/-- A decoder with a failure case: byte strings starting with 255 do not
parse. -/
def intDecodeStrict (b : List ℕ) : Option ℤ :=
  if b.getD 0 0 = 255 then none else some (fromLE b)

/-- A SHA-512 stand-in returning the empty digest. -/
def shaNil : List ℕ → List ℕ := fun _ => []

/-- A randomness source returning 16 zero bytes on every draw. -/
def randZ : ℕ → List ℕ := fun _ => List.replicate 16 0

/-- An all-zero 32-byte public key. -/
def pkZ : List ℕ := List.replicate 32 0

/-- An all-zero 64-byte signature. -/
def sigZ : List ℕ := List.replicate 64 0

/-- A 32-byte public key whose first byte is 255 (rejected by
`intDecodeStrict`). -/
def pkBad : List ℕ := 255 :: List.replicate 31 0

/-- The canonical little-endian 32-byte encoding of the group order `L`:
the re-encoding of the scalar `s = 0` as `s + L`. -/
def LBytes : List ℕ :=
  [237, 211, 245, 92, 26, 99, 18, 88, 214, 156, 247, 162, 222, 249, 222, 20,
   0, 0, 0, 0, 0, 0, 0, 0, 0, 0, 0, 0, 0, 0, 0, 16]

/-- A 64-byte signature whose `R` half is all zeros and whose `s` half
encodes `0 + L`, a non-canonical scalar encoding that still passes the
`sig[63] & 224 == 0` format check. -/
def sigSPlusL : List ℕ := List.replicate 32 0 ++ LBytes

/-- A batch entry holding `pkZ` and the malleable signature `sigSPlusL`. -/
def entrySPlusL : ks := ⟨pkZ, sigSPlusL, 0⟩

/-- A batch entry holding the all-zero key and all-zero signature. -/
def entryZ : ks := ⟨pkZ, sigZ, 0⟩

/-- A 64-byte signature whose `R` half starts with byte 255 (rejected by
`intDecodeStrict`). -/
def sigRBad : List ℕ := 255 :: List.replicate 63 0

/-- A batch entry whose public key does not parse under
`intDecodeStrict`. -/
def entryPkBad : ks := ⟨pkBad, sigZ, 0⟩

/-! ## Spec-side description of the batch verification equation

These definitions transcribe the claim's description of the `2n+1`
scalar/point pairs, to be compared against the source-derived
`BatchVerifier.VerifyBatch`. -/

/-- The spec's per-entry random scalar: the value of the `i`-th 128-bit
draw, zero-extended (so its value is just the draw's value). -/
def zDraw (rand : ℕ → List ℕ) (j : ℕ) : ℕ := fromLE (rand j)

/-- The spec's `s_i`: the value of entry `i`'s signature bytes 32..64. -/
def sOf (v : List ks) (j : ℕ) : ℕ := fromLE ((v.getD j ks0).signature.drop 32)

/-- The spec's challenge `k_i` of entry `i`. -/
def kOf (v : List ks) (j : ℕ) : ℕ := (v.getD j ks0).k

/-- The spec's scalar list: generator coefficient `-Σ(z_i * s_i)` mod `L`,
then the `z_i`, then the `z_i * k_i`. -/
def batchScalars (rand : ℕ → List ℕ) (v : List ks) : List ℕ :=
  (L - ((List.range v.length).map (fun j => zDraw rand j * sOf v j)).sum % L) % L ::
    ((List.range v.length).map (zDraw rand) ++
      (List.range v.length).map (fun j => zDraw rand j * kOf v j % L))

/-- The spec's point list: the generator, then the decoded `R_i`, then the
decoded `A_i`. -/
def batchPoints {Point : Type} (Bpt : Point) (Rf Af : ℕ → Point) (n : ℕ) : List Point :=
  Bpt :: ((List.range n).map Rf ++ (List.range n).map Af)

/-! ## Helper lemmas -/

theorem L_pos : 0 < L := by decide

theorem fromLE_append (a b : List ℕ) :
    fromLE (a ++ b) = fromLE a + 256 ^ a.length * fromLE b := by
  induction a with
  | nil => simp [fromLE]
  | cons x xs ih => simp [fromLE, ih, pow_succ]; ring

theorem fromLE_replicate_zero (n : ℕ) : fromLE (List.replicate n 0) = 0 := by
  induction n with
  | zero => rfl
  | succ m ih => simp [List.replicate_succ, fromLE, ih]

theorem fromLE_lt (l : List ℕ) (h : ∀ b ∈ l, b < 256) :
    fromLE l < 256 ^ l.length := by
  induction l with
  | nil => simp [fromLE]
  | cons x xs ih =>
    have hx : x < 256 := h x (List.mem_cons_self x xs)
    have hxs : fromLE xs < 256 ^ xs.length := ih fun b hb => h b (List.mem_cons_of_mem x hb)
    simp only [fromLE, List.length_cons, pow_succ]
    calc x + 256 * fromLE xs < 256 + 256 * fromLE xs := by omega
    _ = 256 * (fromLE xs + 1) := by ring
    _ ≤ 256 * 256 ^ xs.length := by
        exact Nat.mul_le_mul_left 256 (Nat.succ_le_of_lt hxs)
    _ = 256 ^ xs.length * 256 := by ring

theorem two_pow_128_lt_L : 2 ^ 128 < L := by decide

/-- A 16-byte random draw, zero-extended to 32 bytes, always decodes as a
canonical scalar whose value is the draw's value, strictly below `2^128`. -/
theorem SetCanonicalBytes_draw (b : List ℕ) (hlen : b.length = 16)
    (hb : ∀ x ∈ b, x < 256) :
    SetCanonicalBytes (b ++ List.replicate 16 0) = some (fromLE b) ∧
      fromLE b < 2 ^ 128 := by
  have hv : fromLE (b ++ List.replicate 16 0) = fromLE b := by
    rw [fromLE_append, fromLE_replicate_zero]; ring
  have hlt : fromLE b < 2 ^ 128 := by
    have := fromLE_lt b hb
    rw [hlen] at this
    calc fromLE b < 256 ^ 16 := this
    _ = 2 ^ 128 := by norm_num
  refine ⟨?_, hlt⟩
  rw [SetCanonicalBytes, if_pos]
  · rw [hv]
  · constructor
    · simp [hlen]
    · rw [hv]
      exact lt_trans hlt two_pow_128_lt_L

/-! ## Claims -/

/-- C2: the claim states that batch verification on an accumulator with
zero entries returns `false`, never `true`.  The code has no empty-batch
guard: with zero entries the loop is skipped, the single scalar/point pair
is `[-0]B`, the multi-scalar multiplication yields the identity, cofactor
clearing keeps it the identity, and the comparison succeeds — so both
`BatchVerifier.VerifyBatch` and `Verifier.VerifyBatch` return `true` on an
empty batch, contradicting the claim and the repository's own
`TestEmptyBatchFails` test. -/
theorem VerifyBatch_empty_returns_true {Point : Type} [AddCommGroup Point]
    [DecidableEq Point] (fromBytesP : List ℕ → Option Point) (Bpt : Point)
    (rand : ℕ → List ℕ) :
    (BatchVerifier.VerifyBatch fromBytesP Bpt rand []).1 = true ∧
      (Verifier.VerifyBatch fromBytesP Bpt rand []).1 = true := by
  constructor <;>
    simp [BatchVerifier.VerifyBatch, Verifier.VerifyBatch, batchLoop,
      VarTimeMultiScalarMult, ScalarMult, MultByCofactor, Nat.mod_self]

theorem fromLE_LBytes : fromLE LBytes = L := by decide

theorem range_map_succ_shift {α : Type} (n : ℕ) (f : ℕ → α) :
    (List.range (n + 1)).map f = f 0 :: (List.range n).map (fun j => f (j + 1)) := by
  simp [List.range_succ_eq_map, List.map_map, Function.comp_def]

/-- On a failed length/format check, `Verify` returns `false`. -/
theorem Verify_false_of_fmt {Point : Type} [AddCommGroup Point]
    [DecidableEq Point] (fromBytesP : List ℕ → Option Point) (Bpt : Point)
    (sha : List ℕ → List ℕ) (pk msg sig : List ℕ)
    (h : pk.length ≠ 32 ∨ sig.length ≠ 64 ∨ sig.getD 63 0 &&& 224 ≠ 0) :
    Verify fromBytesP Bpt sha pk msg sig = false := by
  unfold Verify
  by_cases hp : pk.length ≠ 32
  · rw [if_pos hp]
  · rw [if_neg hp, if_pos]
    rcases h with h | h | h
    · exact absurd h hp
    · exact Or.inl h
    · exact Or.inr h

/-- On a failed length/format check, `BatchVerifier.Add` returns `false`
without touching the accumulator. -/
theorem Add_false_of_fmt (sha : List ℕ → List ℕ) (pk sig msg : List ℕ)
    (v : List ks)
    (h : pk.length ≠ 32 ∨ sig.length ≠ 64 ∨ sig.getD 63 0 &&& 224 ≠ 0) :
    BatchVerifier.Add sha v pk sig msg = (false, v) := by
  unfold BatchVerifier.Add
  by_cases hp : pk.length ≠ 32
  · rw [if_pos hp]
  · rw [if_neg hp, if_pos]
    rcases h with h | h | h
    · exact absurd h hp
    · exact Or.inl h
    · exact Or.inr h

/-- C6: a wrong-length public key, a wrong-length signature, or a nonzero
high-three-bit pattern in signature byte 63 makes `Verify` return `false`
and makes `BatchVerifier.Add` return `false` with the accumulator
unchanged, as total functions (no panic), for arbitrary byte strings. -/
theorem Verify_Add_reject_malformed {Point : Type} [AddCommGroup Point]
    [DecidableEq Point] (fromBytesP : List ℕ → Option Point) (Bpt : Point)
    (sha : List ℕ → List ℕ) (pk msg sig : List ℕ) (v : List ks)
    (h : pk.length ≠ 32 ∨ sig.length ≠ 64 ∨ sig.getD 63 0 &&& 224 ≠ 0) :
    Verify fromBytesP Bpt sha pk msg sig = false ∧
      BatchVerifier.Add sha v pk sig msg = (false, v) :=
  ⟨Verify_false_of_fmt fromBytesP Bpt sha pk msg sig h,
   Add_false_of_fmt sha pk sig msg v h⟩

/-- C6 witness: empty-string public key and signature are rejected by both
operations without any fault. -/
theorem Verify_Add_reject_malformed_witness :
    Verify intDecode (0 : ℤ) shaNil [] [] [] = false ∧
      BatchVerifier.Add shaNil [] [] [] [] = (false, []) :=
  Verify_Add_reject_malformed intDecode 0 shaNil [] [] [] []
    (Or.inl (by decide))

/-- C9: `Verify` is a pure, deterministic function of its three byte-string
inputs: byte-for-byte identical public keys, messages and signatures yield
identical booleans.  The embedding takes no randomness source and no state
beyond its arguments, mirroring the source, which draws no randomness in
`Verify`. -/
theorem Verify_deterministic {Point : Type} [AddCommGroup Point]
    [DecidableEq Point] (fromBytesP : List ℕ → Option Point) (Bpt : Point)
    (sha : List ℕ → List ℕ) (pk₁ msg₁ sig₁ pk₂ msg₂ sig₂ : List ℕ)
    (hpk : pk₁ = pk₂) (hmsg : msg₁ = msg₂) (hsig : sig₁ = sig₂) :
    Verify fromBytesP Bpt sha pk₁ msg₁ sig₁ =
      Verify fromBytesP Bpt sha pk₂ msg₂ sig₂ := by
  rw [hpk, hmsg, hsig]

/-- C9 witness: two calls on byte-for-byte equal concrete inputs agree. -/
theorem Verify_deterministic_witness :
    Verify intDecode (0 : ℤ) shaNil pkZ [1, 2] sigZ =
      Verify intDecode (0 : ℤ) shaNil pkZ [1, 2] sigZ :=
  Verify_deterministic intDecode 0 shaNil pkZ [1, 2] sigZ pkZ [1, 2] sigZ
    rfl rfl rfl

/-- C7: `BatchVerifier.Add` returns `false` leaving the entry list
unchanged when the length/format checks fail, and otherwise returns `true`
appending exactly one entry whose challenge scalar is
`reduce(SHA-512(R_bytes || public_key || message))`, computed eagerly at
insertion; no point decoding is involved (`Add` does not consult the point
decoder at all — the embedding takes none). -/
theorem Add_appends_entry {sha : List ℕ → List ℕ} (pk sig msg : List ℕ)
    (v : List ks) :
    (¬(pk.length = 32 ∧ sig.length = 64 ∧ sig.getD 63 0 &&& 224 = 0) →
       BatchVerifier.Add sha v pk sig msg = (false, v)) ∧
      (pk.length = 32 → sig.length = 64 → sig.getD 63 0 &&& 224 = 0 →
       BatchVerifier.Add sha v pk sig msg =
         (true, v ++ [⟨pk, sig, fromLE (sha (sig.take 32 ++ pk ++ msg)) % L⟩])) := by
  constructor
  · intro h
    by_cases h1 : pk.length = 32
    · by_cases h2 : sig.length = 64
      · by_cases h3 : sig.getD 63 0 &&& 224 = 0
        · exact absurd ⟨h1, h2, h3⟩ h
        · exact Add_false_of_fmt sha pk sig msg v (Or.inr (Or.inr h3))
      · exact Add_false_of_fmt sha pk sig msg v (Or.inr (Or.inl h2))
    · exact Add_false_of_fmt sha pk sig msg v (Or.inl h1)
  · intro h1 h2 h3
    unfold BatchVerifier.Add
    rw [if_neg (by omega), if_neg (by push_neg; exact ⟨h2, h3⟩)]
    rfl

/-- C7 witness: a mis-sized signature is rejected without touching a
nonempty accumulator, and a well-formed triple appends exactly its entry
with the reduced digest as challenge. -/
theorem Add_appends_entry_witness :
    BatchVerifier.Add shaNil [entrySPlusL] pkZ [1] [] = (false, [entrySPlusL]) ∧
      BatchVerifier.Add shaNil [] pkZ sigZ [] =
        (true, [⟨pkZ, sigZ, fromLE (shaNil (sigZ.take 32 ++ pkZ ++ [])) % L⟩]) :=
  ⟨(Add_appends_entry pkZ [1] [] [entrySPlusL]).1 (by decide),
   (Add_appends_entry pkZ sigZ [] []).2 (by decide) (by decide) (by decide)⟩

/-- C1: for a 32-byte public key, a 64-byte signature passing the
high-bits format check, whose public-key bytes and `R` bytes both decode
to points and whose `s` bytes are a canonical scalar, `Verify` returns
`true` if and only if `8 * (R_computed - R_decoded)` is the identity,
where `R_computed = [s]B + [h](-A)` (the double scalar multiplication
against the base point) and `h = reduce(SHA-512(R_bytes || pk || msg))`;
exact point equality is not required, only the cofactor-cleared one. -/
theorem Verify_iff_cofactor_cleared {Point : Type} [AddCommGroup Point]
    [DecidableEq Point] (fromBytesP : List ℕ → Option Point) (Bpt : Point)
    (sha : List ℕ → List ℕ) (pk msg sig : List ℕ) (A Rpt : Point)
    (hpk : pk.length = 32) (hsig : sig.length = 64)
    (hbit : sig.getD 63 0 &&& 224 = 0)
    (hA : fromBytesP pk = some A)
    (hR : fromBytesP (sig.take 32) = some Rpt)
    (hs : fromLE (sig.drop 32) < L) :
    (Verify fromBytesP Bpt sha pk msg sig = true ↔
      MultByCofactor
        (ScalarMult (fromLE (sig.drop 32)) Bpt +
          ScalarMult (SetUniformBytes (sha (sig.take 32 ++ pk ++ msg))) (-A) -
            Rpt) = (0 : Point)) := by
  unfold Verify
  rw [if_neg (by omega), if_neg (by push_neg; exact ⟨hsig, hbit⟩)]
  have hscan : SetCanonicalBytes (List.drop 32 sig) =
      some (fromLE (List.drop 32 sig)) := by
    unfold SetCanonicalBytes
    rw [if_pos ⟨by simp [List.length_drop, hsig], hs⟩]
  simp only [hA, hR, hscan]
  rw [decide_eq_true_eq]
  unfold VarTimeDoubleScalarBaseMult
  rw [add_comm (ScalarMult (SetUniformBytes (sha (List.take 32 sig ++ pk ++ msg))) (-A))
    (ScalarMult (fromLE (List.drop 32 sig)) Bpt)]

/-- C1 witness: on the all-zero key and signature over the trivial-digest
hash and the total `ℤ`-decoder, the verification outcome is exactly the
cofactor-cleared equation. -/
theorem Verify_iff_cofactor_cleared_witness :
    (Verify intDecode (1 : ℤ) shaNil pkZ [] sigZ = true ↔
      MultByCofactor
        (ScalarMult (fromLE (sigZ.drop 32)) (1 : ℤ) +
          ScalarMult (SetUniformBytes (shaNil (sigZ.take 32 ++ pkZ ++ []))) (-(0 : ℤ)) -
            (0 : ℤ)) = (0 : ℤ)) :=
  Verify_iff_cofactor_cleared intDecode 1 shaNil pkZ [] sigZ 0 0
    (by decide) (by decide) (by decide) (by decide) (by decide) (by decide)

/-- If some entry of the batch has undecodable `R` bytes, undecodable
public-key bytes, or a non-canonical `s`, the shared per-entry loop fails
(for every start index and accumulator). -/
theorem batchLoop_none_of_bad_entry {Point : Type} [AddCommGroup Point]
    [DecidableEq Point] (fromBytesP : List ℕ → Option Point)
    (rand : ℕ → List ℕ) :
    ∀ (v : List ks) (e : ks), e ∈ v →
      (fromBytesP (e.signature.take 32) = none ∨ fromBytesP e.pubkey = none ∨
        SetCanonicalBytes (e.signature.drop 32) = none) →
      ∀ (i bc : ℕ), batchLoop fromBytesP rand v i bc = none := by
  intro v
  induction v with
  | nil => intro e he; exact absurd he (List.not_mem_nil e)
  | cons a rest ih =>
    intro e he hbad i bc
    rcases List.mem_cons.mp he with rfl | hmem
    · rcases hR : fromBytesP (e.signature.take 32) with _ | Rp
      · simp only [batchLoop, hR]
      · rcases hA : fromBytesP e.pubkey with _ | Ap
        · simp only [batchLoop, hR, hA]
        · rcases hz : SetCanonicalBytes (rand i ++ List.replicate 16 0) with _ | z
          · simp only [batchLoop, hR, hA, hz]
          · rcases hs : SetCanonicalBytes (e.signature.drop 32) with _ | s
            · simp only [batchLoop, hR, hA, hz, hs]
            · rcases hbad with h | h | h
              · rw [h] at hR; exact Option.noConfusion hR
              · rw [h] at hA; exact Option.noConfusion hA
              · rw [h] at hs; exact Option.noConfusion hs
    · rcases hR : fromBytesP (a.signature.take 32) with _ | Rp
      · simp only [batchLoop, hR]
      · rcases hA : fromBytesP a.pubkey with _ | Ap
        · simp only [batchLoop, hR, hA]
        · rcases hz : SetCanonicalBytes (rand i ++ List.replicate 16 0) with _ | z
          · simp only [batchLoop, hR, hA, hz]
          · rcases hs : SetCanonicalBytes (a.signature.drop 32) with _ | s
            · simp only [batchLoop, hR, hA, hz, hs]
            · simp only [batchLoop, hR, hA, hz, hs,
                ih e hmem hbad (i + 1) ((z * s + bc) % L)]

/-- A byte string whose little-endian value is at or above the group order
is not a canonical scalar encoding. -/
theorem SetCanonicalBytes_none_of_ge (b : List ℕ) (h : L ≤ fromLE b) :
    SetCanonicalBytes b = none := by
  unfold SetCanonicalBytes
  rw [if_neg]
  rintro ⟨-, hlt⟩
  omega

/-- C4: a signature whose `s` component (bytes 32..64) is not a canonical
encoding strictly below the group order — in particular one re-encoded as
`s + L` — is rejected by `Verify`, and a batch containing such an entry is
rejected by `BatchVerifier.VerifyBatch`. -/
theorem sNonCanonical_rejected {Point : Type} [AddCommGroup Point]
    [DecidableEq Point] (fromBytesP : List ℕ → Option Point) (Bpt : Point)
    (sha : List ℕ → List ℕ) (rand : ℕ → List ℕ) (pk msg sig : List ℕ)
    (v : List ks) (e : ks)
    (hs : L ≤ fromLE (sig.drop 32)) (he : e ∈ v)
    (hes : L ≤ fromLE (e.signature.drop 32)) :
    Verify fromBytesP Bpt sha pk msg sig = false ∧
      (BatchVerifier.VerifyBatch fromBytesP Bpt rand v).1 = false := by
  constructor
  · have hscan := SetCanonicalBytes_none_of_ge (sig.drop 32) hs
    unfold Verify
    by_cases h1 : pk.length ≠ 32
    · rw [if_pos h1]
    · rw [if_neg h1]
      by_cases h2 : sig.length ≠ 64 ∨ sig.getD 63 0 &&& 224 ≠ 0
      · rw [if_pos h2]
      · rw [if_neg h2]
        rcases hA : fromBytesP pk with _ | A
        · simp only [hA]
        · rcases hR : fromBytesP (sig.take 32) with _ | Rpt
          · simp only [hA, hR]
          · simp only [hA, hR, hscan]
  · have hbad := SetCanonicalBytes_none_of_ge (e.signature.drop 32) hes
    have hloop := batchLoop_none_of_bad_entry fromBytesP rand v e he
      (Or.inr (Or.inr hbad)) 0 0
    unfold BatchVerifier.VerifyBatch
    simp only [hloop]

/-- C4 witness: the signature whose `s` half re-encodes the scalar `0` as
`0 + L` passes the byte-63 format check but is rejected by the single
verifier, and a batch holding that signature is rejected by the batch
verifier. -/
theorem sNonCanonical_rejected_witness :
    Verify intDecode (1 : ℤ) shaNil pkZ [] sigSPlusL = false ∧
      (BatchVerifier.VerifyBatch intDecode (1 : ℤ) randZ [entrySPlusL]).1 = false :=
  sNonCanonical_rejected intDecode 1 shaNil randZ pkZ [] sigSPlusL
    [entrySPlusL] entrySPlusL (by decide) (by decide) (by decide)

/-- C8 counterexample: a `BatchVerifier.VerifyBatch` call on a batch whose
single entry carries the non-canonical `s + L` scalar encoding returns
with the entry sequence NOT reset to empty: the decode failure takes the
early `return false` path, which precedes the purge. -/
theorem VerifyBatch_no_reset_on_decode_failure :
    (BatchVerifier.VerifyBatch intDecode (1 : ℤ) randZ [entrySPlusL]).2 ≠ [] := by
  have hbad := SetCanonicalBytes_none_of_ge (entrySPlusL.signature.drop 32) (by decide)
  have hloop := batchLoop_none_of_bad_entry intDecode randZ [entrySPlusL]
    entrySPlusL (List.mem_singleton.mpr rfl) (Or.inr (Or.inr hbad)) 0 0
  unfold BatchVerifier.VerifyBatch
  simp only [hloop]
  decide

/-- C8 amended: `BatchVerifier.VerifyBatch` resets the entry sequence to
empty exactly on the calls in which every entry decodes (whether the final
identity check returns `true` or `false`); on a decode failure it returns
`false` with the entries left in place; and the `Verifier` variant never
clears its entries at all. -/
theorem VerifyBatch_reset_amended {Point : Type} [AddCommGroup Point]
    [DecidableEq Point] (fromBytesP : List ℕ → Option Point) (Bpt : Point)
    (rand : ℕ → List ℕ) (v : List ks) :
    ((batchLoop fromBytesP rand v 0 0).isSome →
       (BatchVerifier.VerifyBatch fromBytesP Bpt rand v).2 = []) ∧
      (batchLoop fromBytesP rand v 0 0 = none →
        BatchVerifier.VerifyBatch fromBytesP Bpt rand v = (false, v)) ∧
      (Verifier.VerifyBatch fromBytesP Bpt rand v).2 = v := by
  rcases h : batchLoop fromBytesP rand v 0 0 with _ | ⟨bc, zs, acs, Rps, Aps⟩
  · refine ⟨?_, ?_, ?_⟩
    · intro hsome; exact absurd hsome (by simp)
    · intro _
      unfold BatchVerifier.VerifyBatch
      simp only [h]
    · unfold Verifier.VerifyBatch
      simp only [h]
  · refine ⟨?_, ?_, ?_⟩
    · intro _
      unfold BatchVerifier.VerifyBatch
      simp only [h]
    · intro hnone; exact Option.noConfusion hnone
    · unfold Verifier.VerifyBatch
      simp only [h]

/-- C8 witness: an all-decoding batch (the empty one) is reset, a batch
with a decode failure is returned untouched with `false`, and the
`Verifier` variant keeps its entries. -/
theorem VerifyBatch_reset_amended_witness :
    (BatchVerifier.VerifyBatch intDecode (1 : ℤ) randZ ([] : List ks)).2 = [] ∧
      BatchVerifier.VerifyBatch intDecode (1 : ℤ) randZ [entrySPlusL] =
        (false, [entrySPlusL]) ∧
      (Verifier.VerifyBatch intDecode (1 : ℤ) randZ [entrySPlusL]).2 = [entrySPlusL] :=
  ⟨(VerifyBatch_reset_amended intDecode 1 randZ []).1 (by decide),
   (VerifyBatch_reset_amended intDecode 1 randZ [entrySPlusL]).2.1 (by decide),
   (VerifyBatch_reset_amended intDecode 1 randZ [entrySPlusL]).2.2⟩

/-- Characterization of the shared per-entry loop on a batch whose entries
all decode: it succeeds and produces the left-to-right accumulated
`Σ z_i * s_i` (mod `L`), the drawn `z` coefficients, the `z_i * k_i`
coefficients, and the decoded `R` and `A` points, in entry order. -/
theorem batchLoop_spec {Point : Type} [AddCommGroup Point]
    [DecidableEq Point] (fromBytesP : List ℕ → Option Point)
    (rand : ℕ → List ℕ)
    (hrand : ∀ i, (rand i).length = 16 ∧ ∀ x ∈ rand i, x < 256) :
    ∀ (v : List ks) (Rf Af : ℕ → Point) (i₀ bc : ℕ), bc < L →
      (∀ j, j < v.length →
        fromBytesP ((v.getD j ks0).signature.take 32) = some (Rf j) ∧
          fromBytesP ((v.getD j ks0).pubkey) = some (Af j) ∧
          fromLE ((v.getD j ks0).signature.drop 32) < L ∧
          (v.getD j ks0).signature.length = 64) →
      batchLoop fromBytesP rand v i₀ bc =
        some ((bc + ((List.range v.length).map
                (fun j => fromLE (rand (i₀ + j)) *
                  fromLE ((v.getD j ks0).signature.drop 32))).sum) % L,
              (List.range v.length).map (fun j => fromLE (rand (i₀ + j))),
              (List.range v.length).map
                (fun j => fromLE (rand (i₀ + j)) * (v.getD j ks0).k % L),
              (List.range v.length).map Rf,
              (List.range v.length).map Af) := by
  intro v
  induction v with
  | nil =>
    intro Rf Af i₀ bc hbc _
    simp [batchLoop, Nat.mod_eq_of_lt hbc]
  | cons a rest ih =>
    intro Rf Af i₀ bc hbc hent
    have h0 := hent 0 (by simp)
    simp only [List.getD_cons_zero] at h0
    obtain ⟨hR, hA, hs, hlen⟩ := h0
    have hz := SetCanonicalBytes_draw (rand i₀) (hrand i₀).1 (hrand i₀).2
    have hsdec : SetCanonicalBytes (a.signature.drop 32) =
        some (fromLE (a.signature.drop 32)) := by
      unfold SetCanonicalBytes
      rw [if_pos ⟨by simp [hlen], hs⟩]
    have hbc' : (fromLE (rand i₀) * fromLE (a.signature.drop 32) + bc) % L < L :=
      Nat.mod_lt _ L_pos
    have hrest : ∀ j, j < rest.length →
        fromBytesP ((rest.getD j ks0).signature.take 32) = some (Rf (j + 1)) ∧
          fromBytesP ((rest.getD j ks0).pubkey) = some (Af (j + 1)) ∧
          fromLE ((rest.getD j ks0).signature.drop 32) < L ∧
          (rest.getD j ks0).signature.length = 64 := by
      intro j hj
      have := hent (j + 1) (by simpa using Nat.succ_lt_succ hj)
      simpa [List.getD_cons_succ] using this
    have hrec := ih (fun j => Rf (j + 1)) (fun j => Af (j + 1)) (i₀ + 1)
      ((fromLE (rand i₀) * fromLE (a.signature.drop 32) + bc) % L) hbc' hrest
    have hidx : ∀ j : ℕ, i₀ + 1 + j = i₀ + (j + 1) := fun j => by omega
    simp only [hidx] at hrec
    simp only [batchLoop, hR, hA, hz.1, hsdec, hrec]
    simp only [List.length_cons, range_map_succ_shift rest.length,
      List.sum_cons, List.getD_cons_zero, List.getD_cons_succ, add_zero]
    simp only [Option.some.injEq, Prod.mk.injEq, and_true]
    rw [Nat.mod_add_mod]
    congr 1
    ring

/-- C3: on a batch whose `R_i` and `A_i` all decode and whose `s_i` are
all canonical, `BatchVerifier.VerifyBatch` evaluates one multi-scalar
multiplication over exactly the `2n+1` spec-described pairs — generator
with coefficient `-Σ(z_i * s_i) mod L`, each `R_i` weighted `z_i`, each
`A_i` weighted `z_i * k_i`, where each 128-bit draw gives `z_i < 2^128` —
multiplies the result by the cofactor and returns `true` iff it is the
identity. -/
theorem VerifyBatch_equation {Point : Type} [AddCommGroup Point]
    [DecidableEq Point] (fromBytesP : List ℕ → Option Point) (Bpt : Point)
    (rand : ℕ → List ℕ) (v : List ks) (Rf Af : ℕ → Point)
    (hrand : ∀ i, (rand i).length = 16 ∧ ∀ x ∈ rand i, x < 256)
    (hdec : ∀ j, j < v.length →
      fromBytesP ((v.getD j ks0).signature.take 32) = some (Rf j) ∧
        fromBytesP ((v.getD j ks0).pubkey) = some (Af j) ∧
        fromLE ((v.getD j ks0).signature.drop 32) < L ∧
        (v.getD j ks0).signature.length = 64) :
    BatchVerifier.VerifyBatch fromBytesP Bpt rand v =
      (decide (MultByCofactor (VarTimeMultiScalarMult (batchScalars rand v)
        (batchPoints Bpt Rf Af v.length)) = 0), []) ∧
      (batchScalars rand v).length = 2 * v.length + 1 ∧
      (batchPoints Bpt Rf Af v.length).length = 2 * v.length + 1 ∧
      (∀ j, zDraw rand j < 2 ^ 128) := by
  refine ⟨?_, ?_, ?_, ?_⟩
  · have hspec := batchLoop_spec fromBytesP rand hrand v Rf Af 0 0 L_pos hdec
    unfold BatchVerifier.VerifyBatch
    simp only [hspec]
    unfold batchScalars batchPoints zDraw sOf kOf
    rw [Nat.zero_add, Nat.mod_mod_of_dvd _ dvd_rfl]
    simp only [Nat.zero_add]
  · simp [batchScalars]
    omega
  · simp [batchPoints]
    omega
  · intro j
    exact (SetCanonicalBytes_draw (rand j) (hrand j).1 (hrand j).2).2

/-- C3 witness: a one-entry batch (zero key, zero signature, zero draws)
over the total `ℤ`-decoder satisfies the equation characterization. -/
theorem VerifyBatch_equation_witness :
    BatchVerifier.VerifyBatch intDecode (1 : ℤ) randZ [entryZ] =
      (decide (MultByCofactor (VarTimeMultiScalarMult (batchScalars randZ [entryZ])
        (batchPoints (1 : ℤ) (fun _ => (0 : ℤ)) (fun _ => (0 : ℤ)) [entryZ].length)) = 0), []) ∧
      (batchScalars randZ [entryZ]).length = 2 * [entryZ].length + 1 ∧
      (batchPoints (1 : ℤ) (fun _ => (0 : ℤ)) (fun _ => (0 : ℤ)) [entryZ].length).length =
        2 * [entryZ].length + 1 ∧
      (∀ j, zDraw randZ j < 2 ^ 128) :=
  VerifyBatch_equation intDecode 1 randZ [entryZ] (fun _ => 0) (fun _ => 0)
    (by
      intro i
      refine ⟨rfl, ?_⟩
      intro x hx
      simp [randZ, List.mem_replicate] at hx
      omega)
    (by
      intro j hj
      have hj0 : j = 0 := by simpa using hj
      subst hj0
      exact ⟨by decide, by decide, by decide, by decide⟩)

/-- C5: in both verifiers the public key and the signature's `R` component
go through the relaxed decoder alone: if the decoder returns `none` the
verifier rejects, and whenever it returns points the verifiers proceed
past the decode step (the single verifier's result is then exactly the
downstream scalar check and equation, and the batch loop completes),
imposing no extra condition of canonicality or subgroup membership beyond
what the relaxed decoder itself accepts. -/
theorem relaxed_decode_only {Point : Type} [AddCommGroup Point]
    [DecidableEq Point] (fromBytesP : List ℕ → Option Point) (Bpt : Point)
    (sha : List ℕ → List ℕ) (rand : ℕ → List ℕ) (pk msg sig : List ℕ) :
    (fromBytesP pk = none → Verify fromBytesP Bpt sha pk msg sig = false) ∧
      (fromBytesP (sig.take 32) = none →
        Verify fromBytesP Bpt sha pk msg sig = false) ∧
      (∀ A Rpt, pk.length = 32 → sig.length = 64 →
        sig.getD 63 0 &&& 224 = 0 →
        fromBytesP pk = some A → fromBytesP (sig.take 32) = some Rpt →
        Verify fromBytesP Bpt sha pk msg sig =
          match SetCanonicalBytes (sig.drop 32) with
          | none => false
          | some s =>
            decide (MultByCofactor (VarTimeDoubleScalarBaseMult Bpt
              (SetUniformBytes (sha (sig.take 32 ++ pk ++ msg))) (-A) s - Rpt) = 0)) ∧
      (∀ (v : List ks) (e : ks), e ∈ v →
        (fromBytesP (e.signature.take 32) = none ∨ fromBytesP e.pubkey = none) →
        (BatchVerifier.VerifyBatch fromBytesP Bpt rand v).1 = false) ∧
      (∀ (v : List ks) (Rf Af : ℕ → Point),
        (∀ i, (rand i).length = 16 ∧ ∀ x ∈ rand i, x < 256) →
        (∀ j, j < v.length →
          fromBytesP ((v.getD j ks0).signature.take 32) = some (Rf j) ∧
            fromBytesP ((v.getD j ks0).pubkey) = some (Af j) ∧
            fromLE ((v.getD j ks0).signature.drop 32) < L ∧
            (v.getD j ks0).signature.length = 64) →
        (batchLoop fromBytesP rand v 0 0).isSome = true) := by
  refine ⟨?_, ?_, ?_, ?_, ?_⟩
  · intro h
    unfold Verify
    by_cases h1 : pk.length ≠ 32
    · rw [if_pos h1]
    · rw [if_neg h1]
      by_cases h2 : sig.length ≠ 64 ∨ sig.getD 63 0 &&& 224 ≠ 0
      · rw [if_pos h2]
      · rw [if_neg h2]
        simp only [h]
  · intro h
    unfold Verify
    by_cases h1 : pk.length ≠ 32
    · rw [if_pos h1]
    · rw [if_neg h1]
      by_cases h2 : sig.length ≠ 64 ∨ sig.getD 63 0 &&& 224 ≠ 0
      · rw [if_pos h2]
      · rw [if_neg h2]
        rcases hA : fromBytesP pk with _ | A
        · simp only [hA]
        · simp only [hA, h]
  · intro A Rpt h1 h2 h3 hA hR
    unfold Verify
    rw [if_neg (by omega), if_neg (by push_neg; exact ⟨h2, h3⟩)]
    simp only [hA, hR]
  · intro v e he hbad
    have hloop := batchLoop_none_of_bad_entry fromBytesP rand v e he
      (by rcases hbad with h | h; exacts [Or.inl h, Or.inr (Or.inl h)]) 0 0
    unfold BatchVerifier.VerifyBatch
    simp only [hloop]
  · intro v Rf Af hrand hdec
    rw [batchLoop_spec fromBytesP rand hrand v Rf Af 0 0 L_pos hdec]
    rfl

/-- C5 witness: under the decoder `intDecodeStrict` — which fails exactly
on byte strings starting with 255 — an unparseable key rejects, an
unparseable `R` rejects, parseable ones proceed to the downstream check,
a batch entry with an unparseable key rejects the batch, and an
all-parsing batch completes its decode loop. -/
theorem relaxed_decode_only_witness :
    Verify intDecodeStrict (1 : ℤ) shaNil pkBad [] sigZ = false ∧
      Verify intDecodeStrict (1 : ℤ) shaNil pkZ [] sigRBad = false ∧
      (Verify intDecodeStrict (1 : ℤ) shaNil pkZ [] sigZ =
        match SetCanonicalBytes (sigZ.drop 32) with
        | none => false
        | some s =>
          decide (MultByCofactor (VarTimeDoubleScalarBaseMult (1 : ℤ)
            (SetUniformBytes (shaNil (sigZ.take 32 ++ pkZ ++ []))) (-(0 : ℤ)) s -
              (0 : ℤ)) = 0)) ∧
      (BatchVerifier.VerifyBatch intDecodeStrict (1 : ℤ) randZ [entryPkBad]).1 = false ∧
      (batchLoop intDecodeStrict randZ [entryZ] 0 0).isSome = true :=
  ⟨(relaxed_decode_only intDecodeStrict 1 shaNil randZ pkBad [] sigZ).1 (by decide),
   (relaxed_decode_only intDecodeStrict 1 shaNil randZ pkZ [] sigRBad).2.1 (by decide),
   (relaxed_decode_only intDecodeStrict 1 shaNil randZ pkZ [] sigZ).2.2.1 0 0
     (by decide) (by decide) (by decide) (by decide) (by decide),
   (relaxed_decode_only intDecodeStrict 1 shaNil randZ pkZ [] sigZ).2.2.2.1
     [entryPkBad] entryPkBad (List.mem_singleton.mpr rfl) (Or.inr (by decide)),
   (relaxed_decode_only intDecodeStrict 1 shaNil randZ pkZ [] sigZ).2.2.2.2
     [entryZ] (fun _ => 0) (fun _ => 0)
     (by
       intro i
       refine ⟨rfl, ?_⟩
       intro x hx
       simp [randZ, List.mem_replicate] at hx
       omega)
     (by
       intro j hj
       have hj0 : j = 0 := by simpa using hj
       subst hj0
       exact ⟨by decide, by decide, by decide, by decide⟩)⟩

end Ed25519Consensus
